import Mathlib

/-!
# Verification of the contingency-analysis and regression spec

This file embeds the computational core of the repository's notebooks:

* the chi-square independence test performed by calls to
  `scipy.stats.chi2_contingency(observed)` (CELLs 1-12 of the chi-square
  notebook), including the library's documented default behaviour
  `correction=True`, which applies Yates' continuity correction exactly
  when the table has one degree of freedom;
* the Cramer's V / phi computation of CELL 12;
* the least-squares / ridge regression fits of the `DA4` notebook
  (`LinearRegression`, `Ridge(alpha=...)`), modelled through the normal
  equations of the spec, which coincide with the library's documented
  objective (squared residuals plus an L2 penalty on the non-intercept
  coefficients);
* the polynomial feature expansion of `PolynomialFeatures`.

Counts are embedded as integers and the statistic is computed exactly in `ℚ`;
square roots and limits live in `ℝ`.
-/

namespace Chi2

/-- Row total of an observed contingency table (`observed.sum(axis=1)`). -/
def rowTotal (r c : ℕ) (O : Fin r → Fin c → ℤ) (i : Fin r) : ℤ :=
  ∑ j, O i j

/-- Column total of an observed contingency table (`observed.sum(axis=0)`). -/
def colTotal (r c : ℕ) (O : Fin r → Fin c → ℤ) (j : Fin c) : ℤ :=
  ∑ i, O i j

/-- Grand total of an observed contingency table (`observed.sum()`). -/
def grandTotal (r c : ℕ) (O : Fin r → Fin c → ℤ) : ℤ :=
  ∑ i, ∑ j, O i j

/-- Expected frequency under independence, as computed by
`scipy.stats.contingency.expected_freq`: row total times column total over
the grand total. -/
def expected_freq (r c : ℕ) (O : Fin r → Fin c → ℤ) (i : Fin r) (j : Fin c) : ℚ :=
  ((rowTotal r c O i : ℚ) * (colTotal r c O j : ℚ)) / (grandTotal r c O : ℚ)

/-- Degrees of freedom as computed by `chi2_contingency`:
`expected.size - sum(expected.shape) + expected.ndim - 1`, i.e.
`r*c - r - c + 1` (truncated subtraction is harmless for `r, c ≥ 1`). -/
def dof (r c : ℕ) : ℕ :=
  r * c + 1 - r - c

/-- The uncorrected chi-square statistic: the sum over all cells of
`(observed - expected)^2 / expected`. -/
def chi2Plain (r c : ℕ) (O : Fin r → Fin c → ℤ) : ℚ :=
  ∑ i, ∑ j, ((O i j : ℚ) - expected_freq r c O i j) ^ 2 / expected_freq r c O i j

/-- One cell of the Yates continuity adjustment performed by
`chi2_contingency` when `correction=True` and `dof == 1`: the observed count
is moved toward the expected value by `min(0.5, |observed - expected|)`
(`observed + sign(expected - observed) * min(0.5, abs(expected - observed))`
in the library source). -/
def adjCell (o e : ℚ) : ℚ :=
  if o ≤ e then o + min (1/2) (e - o) else o - min (1/2) (o - e)

/-- The Yates-corrected chi-square statistic computed by `chi2_contingency`
on one-degree-of-freedom tables. -/
def chi2Yates (r c : ℕ) (O : Fin r → Fin c → ℤ) : ℚ :=
  ∑ i, ∑ j,
    (adjCell (O i j : ℚ) (expected_freq r c O i j) - expected_freq r c O i j) ^ 2
      / expected_freq r c O i j

/-- The chi-square statistic returned by `chi2_contingency(observed)` with
its default `correction=True`: Yates-corrected when the table has one degree
of freedom, otherwise the plain sum. -/
def chi2stat (r c : ℕ) (O : Fin r → Fin c → ℤ) : ℚ :=
  if dof r c = 1 then chi2Yates r c O else chi2Plain r c O

/-- The floating-point value of one expected-frequency entry, with `none`
standing for the float `nan`: when the grand total is zero the library
computes `0.0/0.0 = nan` in every cell; otherwise the entry is the exact
quotient (an entry is the float `0.0` exactly when the rational value is
`0`, since a quotient of nonzero ints never rounds to zero here). -/
def expectedFloat (r c : ℕ) (O : Fin r → Fin c → ℤ) (i : Fin r) (j : Fin c) : Option ℚ :=
  if grandTotal r c O = 0 then none else some (expected_freq r c O i j)

/-- The floating-point value of the chi-square statistic, with `none`
standing for the float `nan`: the terms `(observed - expected)^2/expected`
propagate the `nan` expected entries of a zero-grand-total table, and
otherwise every expected entry is a nonzero rational and the sum is the
exact `chi2stat`. -/
def statF (r c : ℕ) (O : Fin r → Fin c → ℤ) : Option ℚ :=
  if grandTotal r c O = 0 then none else some (chi2stat r c O)

/-- The result record of a `chi2_contingency` call that returned (the
p-value is a fixed function of `statistic` and `df` and is modelled
separately, see `pValue`); a `none` statistic or expected entry stands for
the float `nan`, which the library returns rather than raising. -/
structure Result (r c : ℕ) where
  statistic : Option ℚ
  df : ℕ
  expected : Fin r → Fin c → Option ℚ

/-- The call `scipy.stats.chi2_contingency(observed)` with the default
`correction=True`, following the library source line by line: it raises
(modelled as `Except.error`) on any negative entry and on an empty table;
it computes `expected = expected_freq(observed)` and raises when
`np.any(expected == 0)` — a float comparison, so it fires exactly when some
entry's float value is `0.0` (`expectedFloat … = some 0`) and in particular
never on a zero-grand-total table, whose expected entries are all `nan`;
when the degrees of freedom are zero it returns statistic `0` and p-value
`1` without touching the cells; otherwise it returns the (possibly
Yates-corrected) statistic, whose float value (`statF`) is `nan` when the
expected table is `nan` and the exact rational sum otherwise. -/
def chi2_contingency (r c : ℕ) (O : Fin r → Fin c → ℤ) :
    Except String (Result r c) :=
  if ∃ i j, O i j < 0 then
    .error "All values in observed must be nonnegative."
  else if r = 0 ∨ c = 0 then
    .error "No data; observed has size 0."
  else if ∃ i j, expectedFloat r c O i j = some 0 then
    .error "The internally computed table of expected frequencies has a zero element."
  else if dof r c = 0 then
    .ok ⟨some 0, 0, expectedFloat r c O⟩
  else
    .ok ⟨statF r c O, dof r c, expectedFloat r c O⟩

/-- Statistic of the analysis, `none` when `chi2_contingency` raised or
when the returned statistic is the float `nan`. -/
def analyzeStat (r c : ℕ) (O : Fin r → Fin c → ℤ) : Option ℚ :=
  match chi2_contingency r c O with
  | .ok R => R.statistic
  | .error _ => none

/-- Degrees of freedom of the analysis, `none` when `chi2_contingency`
raised. -/
def analyzeDf (r c : ℕ) (O : Fin r → Fin c → ℤ) : Option ℕ :=
  match chi2_contingency r c O with
  | .ok R => some R.df
  | .error _ => none

/-- The p-value reported with a statistic: the upper tail of the chi-square
distribution with `k` degrees of freedom (`1` for the degenerate
zero-degrees case, matching the library's `chi2, p = 0.0, 1.0`). -/
noncomputable def chiSqSF (k : ℕ) (x : ℝ) : ℝ :=
  if k = 0 then 1 else
    ∫ t in Set.Ioi x,
      t ^ ((k : ℝ) / 2 - 1) * Real.exp (-t / 2) / (2 ^ ((k : ℝ) / 2) * Real.Gamma ((k : ℝ) / 2))

/-- The p-value of the analysis on a table accepted with positive degrees of
freedom: the chi-square upper tail evaluated at the returned statistic. -/
noncomputable def pValue (r c : ℕ) (O : Fin r → Fin c → ℤ) : ℝ :=
  chiSqSF (dof r c) ((chi2stat r c O : ℚ) : ℝ)

/-- Cramer's V as computed in CELL 12 of the chi-square notebook:
`sqrt(chi2_stat / (n * min_dim))` guarded by `if min_dim_sd == 0` which
yields `np.nan` (modelled as `none`) instead of raising. -/
noncomputable def cramersV (r c : ℕ) (O : Fin r → Fin c → ℤ) : Option ℝ :=
  if min r c - 1 = 0 then none
  else
    some (Real.sqrt (((chi2stat r c O : ℚ) : ℝ) /
      ((grandTotal r c O : ℝ) * ((min r c - 1 : ℕ) : ℝ))))

/-- The phi coefficient of CELL 12: `sqrt(chi2_stat / n)`. -/
noncomputable def phiCoeff (r c : ℕ) (O : Fin r → Fin c → ℤ) : ℝ :=
  Real.sqrt (((chi2stat r c O : ℚ) : ℝ) / (grandTotal r c O : ℝ))

/-- CELL 2: gender versus product preference. -/
def genderTable : Fin 2 → Fin 2 → ℤ := ![![20, 30], ![25, 25]]

/-- CELL 4: smoking versus lung disease. -/
def smokingTable : Fin 2 → Fin 2 → ℤ := ![![50, 30], ![20, 100]]

/-- CELL 6: education level versus news source. -/
def eduTable : Fin 3 → Fin 3 → ℤ :=
  ![![150, 60, 30], ![200, 40, 20], ![100, 20, 15]]

/-- The Yates-corrected statistic as an explicit per-cell formula: each
observed count moves toward its expected value by
`min(0.5, |observed - expected|)`, so the adjusted deviation of a cell is
`max(|observed - expected| - 1/2, 0)`. -/
def yatesCharacterization (r c : ℕ) (O : Fin r → Fin c → ℤ) : ℚ :=
  ∑ i, ∑ j,
    (max (|(O i j : ℚ) - expected_freq r c O i j| - 1/2) 0) ^ 2
      / expected_freq r c O i j

/-- A 2x2 table with small counts: every cell is within 1/2 of its expected
frequency, so the Yates-corrected statistic vanishes although the observed
counts differ from the expected frequencies. -/
def nearIndepTable : Fin 2 → Fin 2 → ℤ := ![![1, 1], ![1, 2]]

/-- A table with a negative entry (invalid input). -/
def negTable : Fin 2 → Fin 2 → ℤ := ![![-1, 2], ![3, 4]]

/-- A table whose first column is all zeros (zero expected frequencies). -/
def zeroColTable : Fin 2 → Fin 2 → ℤ := ![![0, 5], ![0, 7]]

/-- A table with a single row (zero degrees of freedom). -/
def oneRowTable : Fin 1 → Fin 2 → ℤ := ![![3, 4]]

/-- The all-zero table: its grand total is zero, so every expected entry is
the float `nan` and the zero-expected check does not fire. -/
def zeroTable : Fin 2 → Fin 2 → ℤ := ![![0, 0], ![0, 0]]

end Chi2

namespace Reg

/-!
Modelled from the spec: the repository's regression fits are calls into
`sklearn.linear_model.LinearRegression` and `Ridge(alpha=...)`, whose
solver is not part of the repository. The spec (section 4.2) defines the
fit by the normal equations of the penalized least-squares objective
`‖y - X̃ θ‖² + α · ‖θ with the intercept entry zeroed‖²`, the intercept
never being penalized — which is also the library's documented objective.
The fit is embedded relationally: `IsFit X y α θ` states the normal
equations for the augmented design matrix. -/

variable {n p : ℕ}

/-- The augmented design matrix `X̃`: a leading column of ones (the
intercept term) followed by the feature columns. -/
def aug (X : Fin n → Fin p → ℝ) (i : Fin n) : Fin (p + 1) → ℝ :=
  Fin.cons 1 (X i)

/-- The prediction `X̃ θ` at row `i`: intercept plus the dot product of the
coefficients with the features. -/
def pred (X : Fin n → Fin p → ℝ) (θ : Fin (p + 1) → ℝ) (i : Fin n) : ℝ :=
  ∑ k, θ k * aug X i k

/-- The penalized part of the parameter vector: the intercept entry is
zeroed, the remaining coefficients are kept (`D θ` for the spec's
diagonal matrix `D`). -/
def dvec (θ : Fin (p + 1) → ℝ) (k : Fin (p + 1)) : ℝ :=
  if k = 0 then 0 else θ k

/-- Modelled from the spec: `(X̃ᵀ X̃ + α D) θ = X̃ᵀ y`, the normal equations
of the ridge objective with unpenalized intercept. `IsFit X y α θ` holds
exactly of the parameter vectors the fit operation may return. -/
def IsFit (X : Fin n → Fin p → ℝ) (y : Fin n → ℝ) (α : ℝ) (θ : Fin (p + 1) → ℝ) : Prop :=
  ∀ k, (∑ i, (y i - pred X θ i) * aug X i k) = α * dvec θ k

/-- Residual sum of squares of a parameter vector. -/
def rss (X : Fin n → Fin p → ℝ) (y : Fin n → ℝ) (θ : Fin (p + 1) → ℝ) : ℝ :=
  ∑ i, (y i - pred X θ i) ^ 2

/-- The ridge objective: residual sum of squares plus `α` times the squared
norm of the non-intercept coefficients. -/
def objective (X : Fin n → Fin p → ℝ) (y : Fin n → ℝ) (α : ℝ) (θ : Fin (p + 1) → ℝ) : ℝ :=
  rss X y θ + α * ∑ k, dvec θ k ^ 2

/-- Modelled from the spec: the ordinary-least-squares fit, a parameter
vector minimizing the residual sum of squares. -/
def IsOLS (X : Fin n → Fin p → ℝ) (y : Fin n → ℝ) (θ : Fin (p + 1) → ℝ) : Prop :=
  ∀ θ', rss X y θ ≤ rss X y θ'

/-- A single-feature design matrix built from a vector of inputs. -/
def lineX (x : Fin n → ℝ) : Fin n → Fin 1 → ℝ :=
  fun i _ => x i

end Reg

namespace Poly

/-!
Modelled from the spec: `expand` reproduces
`sklearn.preprocessing.PolynomialFeatures`, whose documented output lists,
degree by ascending degree, every combination with repetition of the input
features (combinations without repetition when `interactionOnly`), each
combination contributing the product of the chosen features; the bias
(degree-0) column is included only when `includeBias`. -/

/-- All nondecreasing index sequences of length `d` with entries drawn from
`start, ..., pfeat - 1`, in lexicographic order (the order of
`itertools.combinations_with_replacement`). -/
def cwrFrom (pfeat : ℕ) : ℕ → ℕ → List (List ℕ)
  | 0, _ => [[]]
  | d + 1, start =>
    ((List.range pfeat).drop start).flatMap fun i =>
      (cwrFrom pfeat d i).map fun t => i :: t

/-- All strictly increasing index sequences of length `d` with entries drawn
from `start, ..., pfeat - 1`, in lexicographic order (the order of
`itertools.combinations`). -/
def combFrom (pfeat : ℕ) : ℕ → ℕ → List (List ℕ)
  | 0, _ => [[]]
  | d + 1, start =>
    ((List.range pfeat).drop start).flatMap fun i =>
      (combFrom pfeat d (i + 1)).map fun t => i :: t

/-- The exponent combinations generated for `pfeat` input features: degrees
ascend from `0` (or `1` without the bias column) to `degree`; within one
degree the combinations are lexicographic. -/
def polyCombos (pfeat degree : ℕ) (includeBias interactionOnly : Bool) : List (List ℕ) :=
  ((List.range (degree + 1)).drop (if includeBias then 0 else 1)).flatMap fun d =>
    if interactionOnly then combFrom pfeat d 0 else cwrFrom pfeat d 0

/-- One row of the expanded design matrix: each generated combination is
evaluated as the product of the selected input features. -/
def expandRow (xs : List ℚ) (degree : ℕ) (includeBias interactionOnly : Bool) : List ℚ :=
  (polyCombos xs.length degree includeBias interactionOnly).map fun t =>
    (t.map fun i => xs.getD i 0).prod

end Poly

namespace Chi2

/-- The statistic the notebook's CELL 3 call computes on the gender table:
the Yates-corrected value `64/99 ≈ 0.6465`. -/
lemma gender_stat : chi2stat 2 2 genderTable = 64 / 99 := by
  norm_num [chi2stat, chi2Yates, chi2Plain, dof, expected_freq, rowTotal, colTotal,
    grandTotal, adjCell, genderTable, Fin.sum_univ_succ, min_def]

/-- The statistic the notebook's CELL 5 call computes on the smoking table:
the Yates-corrected value `46225/1092 ≈ 42.3306`. -/
lemma smoking_stat : chi2stat 2 2 smokingTable = 46225 / 1092 := by
  norm_num [chi2stat, chi2Yates, chi2Plain, dof, expected_freq, rowTotal, colTotal,
    grandTotal, adjCell, smokingTable, Fin.sum_univ_succ, min_def]

/-- The uncorrected statistic on the gender table, `100/99 ≈ 1.0101`, the
value the notebook's narrative computes by hand. -/
lemma gender_plain : chi2Plain 2 2 genderTable = 100 / 99 := by
  norm_num [chi2Plain, expected_freq, rowTotal, colTotal, grandTotal, genderTable,
    Fin.sum_univ_succ]

/-- The uncorrected statistic on the smoking table, `12100/273 ≈ 44.3223`. -/
lemma smoking_plain : chi2Plain 2 2 smokingTable = 12100 / 273 := by
  norm_num [chi2Plain, expected_freq, rowTotal, colTotal, grandTotal, smokingTable,
    Fin.sum_univ_succ]

/-- The analysis accepts the gender table and returns the corrected
statistic with one degree of freedom. -/
lemma gender_ok : chi2_contingency 2 2 genderTable =
    .ok ⟨some (64 / 99), 1, expectedFloat 2 2 genderTable⟩ := by
  rw [chi2_contingency, if_neg (by decide), if_neg (by norm_num),
    if_neg (by
      push_neg
      intro i j
      fin_cases i <;> fin_cases j <;>
        norm_num [expectedFloat, expected_freq, rowTotal, colTotal, grandTotal,
          genderTable, Fin.sum_univ_succ]),
    if_neg (by norm_num [dof])]
  rw [statF, if_neg (by decide), gender_stat]
  norm_num [dof]

/-- The analysis accepts the smoking table and returns the corrected
statistic with one degree of freedom. -/
lemma smoking_ok : chi2_contingency 2 2 smokingTable =
    .ok ⟨some (46225 / 1092), 1, expectedFloat 2 2 smokingTable⟩ := by
  rw [chi2_contingency, if_neg (by decide), if_neg (by norm_num),
    if_neg (by
      push_neg
      intro i j
      fin_cases i <;> fin_cases j <;>
        norm_num [expectedFloat, expected_freq, rowTotal, colTotal, grandTotal,
          smokingTable, Fin.sum_univ_succ]),
    if_neg (by norm_num [dof])]
  rw [statF, if_neg (by decide), smoking_stat]
  norm_num [dof]

lemma analyzeStat_gender : analyzeStat 2 2 genderTable = some (64 / 99) := by
  rw [analyzeStat, gender_ok]

lemma analyzeStat_smoking : analyzeStat 2 2 smokingTable = some (46225 / 1092) := by
  rw [analyzeStat, smoking_ok]

/-- C1, divergence of the code from the spec's test vectors. The notebook's
CELL 3 and CELL 5 invoke `chi2_contingency` with the default
`correction=True`; on these one-degree-of-freedom tables the Yates
correction is applied, so the analysis returns `64/99 ≈ 0.6465` (not within
`0.01` of the stated `1.0083`) and `46225/1092 ≈ 42.3306` (not within `0.1`
of the stated `44.33`). The uncorrected statistic `chi2Plain` — the formula
the notebook's own markdown computes by hand — does match the stated
values, showing the spec recorded the intended, uncorrected computation. -/
theorem claim_C1_bug :
    analyzeStat 2 2 genderTable = some (64 / 99) ∧
    1 / 100 < |(64 : ℚ) / 99 - 10083 / 10000| ∧
    |chi2Plain 2 2 genderTable - 10083 / 10000| ≤ 1 / 100 ∧
    analyzeStat 2 2 smokingTable = some (46225 / 1092) ∧
    1 / 10 < |(46225 : ℚ) / 1092 - 4433 / 100| ∧
    |chi2Plain 2 2 smokingTable - 4433 / 100| ≤ 1 / 10 := by
  refine ⟨analyzeStat_gender, ?_, ?_, analyzeStat_smoking, ?_, ?_⟩
  · rw [abs_of_nonpos (by norm_num)]; norm_num
  · rw [gender_plain, abs_of_nonneg (by norm_num)]; norm_num
  · rw [abs_of_nonpos (by norm_num)]; norm_num
  · rw [smoking_plain, abs_of_nonpos (by norm_num)]; norm_num

/-- C2, divergence of the code's Cramer's V value from the spec. CELL 12
computes `sqrt(chi2_stat_sd / (n * min_dim))` from the Yates-corrected
statistic `46225/1092`, giving `sqrt(46225/218400) ≈ 0.4601`, strictly below
`0.461` and hence not within `0.01` of the stated `0.471`; the equality with
the phi coefficient (the formula part of the claim) does hold. -/
theorem claim_C2_bug :
    cramersV 2 2 smokingTable = some (Real.sqrt ((46225 : ℝ) / 218400)) ∧
    cramersV 2 2 smokingTable = some (phiCoeff 2 2 smokingTable) ∧
    Real.sqrt ((46225 : ℝ) / 218400) < 461 / 1000 ∧
    ¬ |Real.sqrt ((46225 : ℝ) / 218400) - 471 / 1000| ≤ 1 / 100 := by
  have hgt : grandTotal 2 2 smokingTable = 200 := by decide
  have harg : ((chi2stat 2 2 smokingTable : ℚ) : ℝ) /
      ((grandTotal 2 2 smokingTable : ℝ) * ((min 2 2 - 1 : ℕ) : ℝ)) =
      (46225 : ℝ) / 218400 := by
    rw [smoking_stat, hgt]
    norm_num
  have hsq : Real.sqrt ((46225 : ℝ) / 218400) < 461 / 1000 := by
    rw [Real.sqrt_lt' (by norm_num)]
    norm_num
  refine ⟨?_, ?_, hsq, ?_⟩
  · rw [cramersV, if_neg (by norm_num), harg]
  · rw [cramersV, if_neg (by norm_num), phiCoeff, hgt]
    norm_num
  · intro habs
    have h1 := (abs_le.mp habs).1
    linarith

/-- Per-cell algebra of the Yates adjustment: moving the observed count
toward the expected value by `min(1/2, |o - e|)` leaves a squared deviation
of `max(|o - e| - 1/2, 0)^2`. -/
lemma adjCell_sub_sq (o e : ℚ) :
    (adjCell o e - e) ^ 2 = (max (|o - e| - 1/2) 0) ^ 2 := by
  unfold adjCell
  by_cases hle : o ≤ e
  · rw [if_pos hle]
    rcases le_total (1/2 : ℚ) (e - o) with h2 | h2
    · rw [min_eq_left h2, abs_of_nonpos (by linarith), max_eq_left (by linarith)]
      ring
    · rw [min_eq_right h2, abs_of_nonpos (by linarith), max_eq_right (by linarith)]
      ring
  · rw [if_neg hle]
    push_neg at hle
    rcases le_total (1/2 : ℚ) (o - e) with h2 | h2
    · rw [min_eq_left h2, abs_of_nonneg (by linarith), max_eq_left (by linarith)]
      ring
    · rw [min_eq_right h2, abs_of_nonneg (by linarith), max_eq_right (by linarith)]
      ring

/-- C3: with the default `correction=True`, the statistic (and with it the
p-value, a function of the statistic) computed by `chi2_contingency` on a
one-degree-of-freedom table is the Yates-corrected sum, in which each
observed count has moved toward its expected value by
`min(0.5, |observed - expected|)`; on tables with more than one degree of
freedom the plain uncorrected sum is computed. -/
theorem claim_C3 (r c : ℕ) (O : Fin r → Fin c → ℤ) :
    (dof r c = 1 →
      chi2stat r c O = yatesCharacterization r c O ∧
      pValue r c O = chiSqSF 1 ((yatesCharacterization r c O : ℚ) : ℝ)) ∧
    (1 < dof r c →
      chi2stat r c O = chi2Plain r c O ∧
      pValue r c O = chiSqSF (dof r c) ((chi2Plain r c O : ℚ) : ℝ)) := by
  have hY : chi2Yates r c O = yatesCharacterization r c O := by
    unfold chi2Yates yatesCharacterization
    refine Finset.sum_congr rfl fun i _ => Finset.sum_congr rfl fun j _ => ?_
    rw [adjCell_sub_sq]
  constructor
  · intro h1
    have hs : chi2stat r c O = yatesCharacterization r c O := by
      rw [chi2stat, if_pos h1, hY]
    exact ⟨hs, by rw [pValue, hs, h1]⟩
  · intro h2
    have hs : chi2stat r c O = chi2Plain r c O := by
      rw [chi2stat, if_neg (by omega)]
    exact ⟨hs, by rw [pValue, hs]⟩

theorem claim_C3_witness :
    chi2stat 2 2 genderTable = yatesCharacterization 2 2 genderTable :=
  ((claim_C3 2 2 genderTable).1 (by norm_num [dof])).1

/-- C4, divergence at a small table. On `[[1,1],[1,2]]` every observed cell
is within `1/2` of its expected frequency, so the Yates-corrected statistic
the analysis returns is exactly `0` although the observed counts do not
equal the expected frequencies (the uncorrected statistic is `5/36 ≠ 0`). -/
theorem claim_C4_bug :
    analyzeStat 2 2 nearIndepTable = some 0 ∧
    (nearIndepTable 0 0 : ℚ) ≠ expected_freq 2 2 nearIndepTable 0 0 ∧
    chi2Plain 2 2 nearIndepTable = 5 / 36 := by
  refine ⟨?_, ?_, ?_⟩
  · rw [analyzeStat, chi2_contingency, if_neg (by decide), if_neg (by norm_num),
      if_neg (by
        push_neg
        intro i j
        fin_cases i <;> fin_cases j <;>
          norm_num [expectedFloat, expected_freq, rowTotal, colTotal, grandTotal,
            nearIndepTable, Fin.sum_univ_succ]),
      if_neg (by norm_num [dof])]
    have hs : chi2stat 2 2 nearIndepTable = 0 := by
      norm_num [chi2stat, chi2Yates, chi2Plain, dof, expected_freq, rowTotal, colTotal,
        grandTotal, adjCell, nearIndepTable, Fin.sum_univ_succ, min_def]
    rw [statF, if_neg (by decide), hs]
  · norm_num [expected_freq, rowTotal, colTotal, grandTotal, nearIndepTable,
      Fin.sum_univ_succ]
  · norm_num [chi2Plain, expected_freq, rowTotal, colTotal, grandTotal, nearIndepTable,
      Fin.sum_univ_succ]

/-- The degrees-of-freedom formula of `chi2_contingency` agrees with
`(r-1)(c-1)` on nonempty shapes. -/
lemma dof_eq (r c : ℕ) (hr : 1 ≤ r) (hc : 1 ≤ c) : dof r c = (r - 1) * (c - 1) := by
  obtain ⟨a, rfl⟩ := Nat.exists_eq_add_of_le hr
  obtain ⟨b, rfl⟩ := Nat.exists_eq_add_of_le hc
  have h1 : (1 + a) * (1 + b) = 1 + a + b + a * b := by ring
  have h2 : 1 + a - 1 = a := by omega
  have h3 : 1 + b - 1 = b := by omega
  unfold dof
  rw [h1, h2, h3]
  generalize a * b = m
  omega

lemma edu_df : analyzeDf 3 3 eduTable = some 4 := by
  rw [analyzeDf, chi2_contingency, if_neg (by decide), if_neg (by norm_num),
    if_neg (by
      push_neg
      intro i j
      fin_cases i <;> fin_cases j <;>
        norm_num [expectedFloat, expected_freq, rowTotal, colTotal, grandTotal,
          eduTable, Fin.sum_univ_succ]),
    if_neg (by norm_num [dof])]
  norm_num [dof]

/-- C9: every table accepted by the analysis with at least two rows and two
columns is reported with `(r-1)(c-1)` degrees of freedom, and the 3x3
education table of CELL 6 is reported with 4. -/
theorem claim_C9 :
    (∀ (r c : ℕ) (O : Fin r → Fin c → ℤ) (d : ℕ), 2 ≤ r → 2 ≤ c →
      analyzeDf r c O = some d → d = (r - 1) * (c - 1)) ∧
    analyzeDf 3 3 eduTable = some 4 := by
  constructor
  · intro r c O d hr hc h
    rw [analyzeDf, chi2_contingency] at h
    split_ifs at h with h1 h2 h3 h4
    · exfalso
      rw [dof_eq r c (by omega) (by omega)] at h4
      rcases Nat.mul_eq_zero.mp h4 with h5 | h5 <;> omega
    · change some (dof r c) = some d at h
      injection h with h
      rw [← h]
      exact dof_eq r c (by omega) (by omega)
  · exact edu_df

theorem claim_C9_witness : (1 : ℕ) = (2 - 1) * (2 - 1) :=
  claim_C9.1 2 2 genderTable 1 (by norm_num) (by norm_num)
    (by rw [analyzeDf, gender_ok])

/-- C8: the expected-frequency table is the outer product of the margins
over the grand total, and its row and column sums reproduce the observed
margins exactly (the embedding computes in `ℚ`, so the spec's `1e-9`
tolerance is met with exact equality). -/
theorem claim_C8 (r c : ℕ) (O : Fin r → Fin c → ℤ) (hr : 2 ≤ r) (hc : 2 ≤ c)
    (hnn : ∀ i j, 0 ≤ O i j) (hN : 0 < grandTotal r c O) :
    (∀ i j, expected_freq r c O i j =
      (rowTotal r c O i : ℚ) * (colTotal r c O j : ℚ) / (grandTotal r c O : ℚ)) ∧
    (∀ i, ∑ j, expected_freq r c O i j = (rowTotal r c O i : ℚ)) ∧
    (∀ j, ∑ i, expected_freq r c O i j = (colTotal r c O j : ℚ)) := by
  have hNne : (grandTotal r c O : ℚ) ≠ 0 := by
    exact_mod_cast hN.ne'
  have hcol : ∑ j, (colTotal r c O j : ℚ) = (grandTotal r c O : ℚ) := by
    unfold colTotal grandTotal
    push_cast
    rw [Finset.sum_comm]
  have hrow : ∑ i, (rowTotal r c O i : ℚ) = (grandTotal r c O : ℚ) := by
    unfold rowTotal grandTotal
    push_cast
    rfl
  refine ⟨fun i j => rfl, fun i => ?_, fun j => ?_⟩
  · unfold expected_freq
    rw [← Finset.sum_div, ← Finset.mul_sum, hcol, mul_div_assoc, div_self hNne, mul_one]
  · unfold expected_freq
    rw [← Finset.sum_div, ← Finset.sum_mul, hrow, mul_comm, mul_div_assoc,
      div_self hNne, mul_one]

theorem claim_C8_witness :
    ∑ j, expected_freq 2 2 genderTable 0 j = (rowTotal 2 2 genderTable 0 : ℚ) :=
  (claim_C8 2 2 genderTable (by norm_num) (by norm_num) (by decide) (by decide)).2.1 0

/-- C10, the validation the code actually performs: a negative entry
raises, and a zero expected-frequency entry raises when the grand total is
positive — with no partial result in either case. Neither of the other
claimed preconditions makes the code fail: a zero grand total (the all-zero
table) slips past the zero-expected check, because every expected entry is
the float `nan` and `nan == 0` is false, and the call silently returns a
`nan` statistic; a single-row table is returned with statistic `0` and zero
degrees of freedom; and CELL 12's Cramer's V yields the `np.nan` guard
value (modelled `none`) instead of raising when `min(rows,cols) = 1`. -/
theorem claim_C10_amended :
    (∀ (r c : ℕ) (O : Fin r → Fin c → ℤ), (∃ i j, O i j < 0) →
      chi2_contingency r c O = .error "All values in observed must be nonnegative.") ∧
    (∀ (r c : ℕ) (O : Fin r → Fin c → ℤ), (∀ i j, 0 ≤ O i j) →
      0 < grandTotal r c O → (∃ i j, expected_freq r c O i j = 0) →
      chi2_contingency r c O =
        .error "The internally computed table of expected frequencies has a zero element.") ∧
    (∀ (r c : ℕ) (O : Fin r → Fin c → ℤ), 2 ≤ r → 2 ≤ c → (∀ i j, O i j = 0) →
      chi2_contingency r c O = .ok ⟨none, dof r c, expectedFloat r c O⟩) ∧
    (∀ (c : ℕ) (O : Fin 1 → Fin c → ℤ), 1 ≤ c → (∀ j, 0 < O 0 j) →
      chi2_contingency 1 c O = .ok ⟨some 0, 0, expectedFloat 1 c O⟩) ∧
    (∀ (r c : ℕ) (O : Fin r → Fin c → ℤ), min r c = 1 → cramersV r c O = none) := by
  refine ⟨?_, ?_, ?_, ?_, ?_⟩
  · intro r c O h
    rw [chi2_contingency, if_pos h]
  · intro r c O hnn hN hz
    rw [chi2_contingency,
      if_neg (by simp only [not_exists, not_lt]; exact hnn),
      if_neg (by
        rintro (rfl | rfl)
        · simp [grandTotal] at hN
        · simp [grandTotal] at hN),
      if_pos (by
        obtain ⟨i, j, hij⟩ := hz
        exact ⟨i, j, by rw [expectedFloat, if_neg hN.ne', hij]⟩)]
  · intro r c O hr hc hzero
    have hN : grandTotal r c O = 0 := by
      unfold grandTotal
      exact Finset.sum_eq_zero fun i _ => Finset.sum_eq_zero fun j _ => hzero i j
    rw [chi2_contingency,
      if_neg (by
        push_neg
        intro i j
        simp [hzero i j]),
      if_neg (by rintro (rfl | rfl) <;> omega),
      if_neg (by
        push_neg
        intro i j
        rw [expectedFloat, if_pos hN]
        simp),
      if_neg (by
        rw [dof_eq r c (by omega) (by omega)]
        exact Nat.mul_ne_zero (by omega) (by omega))]
    rw [statF, if_pos hN]
  · intro c O hc hpos
    have hg : grandTotal 1 c O = ∑ j, O 0 j := by
      unfold grandTotal
      rw [Fin.sum_univ_one]
    have hN : 0 < grandTotal 1 c O := by
      rw [hg]
      exact Finset.sum_pos (fun j _ => hpos j) ⟨⟨0, by omega⟩, Finset.mem_univ _⟩
    have hNq : (grandTotal 1 c O : ℚ) ≠ 0 := by exact_mod_cast hN.ne'
    have hexp : ∀ (i : Fin 1) (j : Fin c), expected_freq 1 c O i j = (O 0 j : ℚ) := by
      intro i j
      have hi : i = 0 := Fin.eq_zero i
      subst hi
      unfold expected_freq rowTotal colTotal
      rw [Fin.sum_univ_one, ← hg, mul_comm, mul_div_assoc, div_self hNq, mul_one]
    rw [chi2_contingency,
      if_neg (by
        push_neg
        intro i j
        have hi : i = 0 := Fin.eq_zero i
        subst hi
        exact (hpos j).le),
      if_neg (by
        push_neg
        exact ⟨one_ne_zero, by omega⟩),
      if_neg (by
        push_neg
        intro i j
        rw [expectedFloat, if_neg hN.ne']
        simp only [ne_eq, Option.some.injEq]
        rw [hexp i j]
        exact_mod_cast (hpos j).ne'),
      if_pos (by unfold dof; omega)]
  · intro r c O h
    rw [cramersV, if_pos (by omega)]

theorem claim_C10_amended_witness :
    chi2_contingency 2 2 negTable = .error "All values in observed must be nonnegative." ∧
    chi2_contingency 2 2 zeroColTable =
      .error "The internally computed table of expected frequencies has a zero element." ∧
    chi2_contingency 2 2 zeroTable = .ok ⟨none, dof 2 2, expectedFloat 2 2 zeroTable⟩ ∧
    chi2_contingency 1 2 oneRowTable = .ok ⟨some 0, 0, expectedFloat 1 2 oneRowTable⟩ ∧
    cramersV 1 2 oneRowTable = none := by
  refine ⟨?_, ?_, ?_, ?_, ?_⟩
  · exact claim_C10_amended.1 2 2 negTable ⟨0, 0, by norm_num [negTable]⟩
  · exact claim_C10_amended.2.1 2 2 zeroColTable (by decide) (by decide)
      ⟨0, 0, by
        norm_num [expected_freq, rowTotal, colTotal, grandTotal, zeroColTable,
          Fin.sum_univ_succ]⟩
  · exact claim_C10_amended.2.2.1 2 2 zeroTable (by norm_num) (by norm_num) (by decide)
  · exact claim_C10_amended.2.2.2.1 2 oneRowTable (by norm_num) (by decide)
  · exact claim_C10_amended.2.2.2.2 1 2 oneRowTable (by norm_num)

/-- C10, counterexample to the claim as stated: a table with a single row
violates the claimed precondition (at least two rows), yet the analysis does
not fail — it returns the silent zero result the spec promises it never
returns — and Cramer's V on it is the `np.nan` guard value, not an error. -/
theorem claim_C10_counterexample :
    analyzeStat 1 2 oneRowTable = some 0 ∧ cramersV 1 2 oneRowTable = none := by
  constructor
  · rw [analyzeStat, chi2_contingency, if_neg (by decide), if_neg (by norm_num),
      if_neg (by
        push_neg
        intro i j
        fin_cases i <;> fin_cases j <;>
          norm_num [expectedFloat, expected_freq, rowTotal, colTotal, grandTotal,
            oneRowTable, Fin.sum_univ_succ]),
      if_pos (by norm_num [dof])]
  · rw [cramersV, if_pos (by norm_num)]

end Chi2

namespace Reg

variable {n p : ℕ}

/-- Prediction is linear in the parameters. -/
lemma pred_add_pointwise (X : Fin n → Fin p → ℝ) (θ δ : Fin (p + 1) → ℝ) (i : Fin n) :
    pred X (fun k => θ k + δ k) i = pred X θ i + pred X δ i := by
  unfold pred
  rw [← Finset.sum_add_distrib]
  exact Finset.sum_congr rfl fun k _ => by ring

/-- The penalized part of the parameters is linear. -/
lemma dvec_add_pointwise (θ δ : Fin (p + 1) → ℝ) (k : Fin (p + 1)) :
    dvec (fun k => θ k + δ k) k = dvec θ k + dvec δ k := by
  unfold dvec
  by_cases hk : k = 0 <;> simp [hk]

/-- Completing the square around a solution of the normal equations: moving
away from it adds the squared norm of the prediction change plus `α` times
the squared norm of the penalized parameter change. -/
lemma objective_expand (X : Fin n → Fin p → ℝ) (y : Fin n → ℝ) (α : ℝ)
    (θ θ' : Fin (p + 1) → ℝ) (hfit : IsFit X y α θ) :
    objective X y α θ' = objective X y α θ
      + (∑ i, pred X (fun k => θ' k - θ k) i ^ 2)
      + α * ∑ k, dvec (fun k => θ' k - θ k) k ^ 2 := by
  have hpred : ∀ i, pred X θ' i = pred X θ i + pred X (fun k => θ' k - θ k) i := by
    intro i
    unfold pred
    rw [← Finset.sum_add_distrib]
    refine Finset.sum_congr rfl fun k _ => ?_
    show θ' k * aug X i k = θ k * aug X i k + (θ' k - θ k) * aug X i k
    ring
  have hdvec : ∀ k, dvec θ' k = dvec θ k + dvec (fun k => θ' k - θ k) k := by
    intro k
    unfold dvec
    by_cases hk : k = 0
    · simp [hk]
    · simp only [if_neg hk]
      ring
  have hcross : ∑ i, (y i - pred X θ i) * pred X (fun k => θ' k - θ k) i
      = α * ∑ k, dvec θ k * dvec (fun k => θ' k - θ k) k := by
    have h1 : ∀ i, (y i - pred X θ i) * pred X (fun k => θ' k - θ k) i
        = ∑ k, (θ' k - θ k) * ((y i - pred X θ i) * aug X i k) := by
      intro i
      unfold pred
      rw [Finset.mul_sum]
      exact Finset.sum_congr rfl fun k _ => by ring
    calc ∑ i, (y i - pred X θ i) * pred X (fun k => θ' k - θ k) i
        = ∑ i, ∑ k, (θ' k - θ k) * ((y i - pred X θ i) * aug X i k) :=
          Finset.sum_congr rfl fun i _ => h1 i
      _ = ∑ k, ∑ i, (θ' k - θ k) * ((y i - pred X θ i) * aug X i k) := Finset.sum_comm
      _ = ∑ k, (θ' k - θ k) * ∑ i, (y i - pred X θ i) * aug X i k := by
          exact Finset.sum_congr rfl fun k _ => by rw [Finset.mul_sum]
      _ = ∑ k, (θ' k - θ k) * (α * dvec θ k) := by
          exact Finset.sum_congr rfl fun k _ => by rw [hfit k]
      _ = α * ∑ k, dvec θ k * dvec (fun k => θ' k - θ k) k := by
          rw [Finset.mul_sum]
          refine Finset.sum_congr rfl fun k _ => ?_
          unfold dvec
          by_cases hk : k = 0 <;> simp [hk] <;> ring
  have expand1 : rss X y θ' = rss X y θ
      - 2 * (∑ i, (y i - pred X θ i) * pred X (fun k => θ' k - θ k) i)
      + ∑ i, pred X (fun k => θ' k - θ k) i ^ 2 := by
    unfold rss
    have h2 : ∀ i, (y i - pred X θ' i) ^ 2
        = ((y i - pred X θ i) ^ 2
            - 2 * ((y i - pred X θ i) * pred X (fun k => θ' k - θ k) i))
          + pred X (fun k => θ' k - θ k) i ^ 2 := by
      intro i
      rw [hpred i]
      ring
    rw [Finset.sum_congr rfl fun i _ => h2 i, Finset.sum_add_distrib,
      Finset.sum_sub_distrib, ← Finset.mul_sum]
  have expand2 : (∑ k, dvec θ' k ^ 2) = (∑ k, dvec θ k ^ 2)
      + 2 * (∑ k, dvec θ k * dvec (fun k => θ' k - θ k) k)
      + ∑ k, dvec (fun k => θ' k - θ k) k ^ 2 := by
    have h2 : ∀ k, dvec θ' k ^ 2
        = (dvec θ k ^ 2 + 2 * (dvec θ k * dvec (fun k => θ' k - θ k) k))
          + dvec (fun k => θ' k - θ k) k ^ 2 := by
      intro k
      rw [hdvec k]
      ring
    rw [Finset.sum_congr rfl fun k _ => h2 k, Finset.sum_add_distrib,
      Finset.sum_add_distrib, ← Finset.mul_sum]
  unfold objective
  rw [expand1, expand2, hcross]
  ring

/-- A solution of the normal equations minimizes the ridge objective. -/
lemma isFit_isMin (X : Fin n → Fin p → ℝ) (y : Fin n → ℝ) {α : ℝ}
    {θ : Fin (p + 1) → ℝ} (hfit : IsFit X y α θ) (hα : 0 ≤ α)
    (θ' : Fin (p + 1) → ℝ) : objective X y α θ ≤ objective X y α θ' := by
  rw [objective_expand X y α θ θ' hfit]
  have h1 : (0:ℝ) ≤ ∑ i, pred X (fun k => θ' k - θ k) i ^ 2 :=
    Finset.sum_nonneg fun i _ => sq_nonneg _
  have h2 : (0:ℝ) ≤ ∑ k, dvec (fun k => θ' k - θ k) k ^ 2 :=
    Finset.sum_nonneg fun k _ => sq_nonneg _
  nlinarith [mul_nonneg hα h2]

/-- At `α = 0` the normal equations make the parameters an ordinary
least-squares minimizer. -/
lemma isFit_zero_isOLS (X : Fin n → Fin p → ℝ) (y : Fin n → ℝ)
    {θ : Fin (p + 1) → ℝ} (hfit : IsFit X y 0 θ) : IsOLS X y θ := by
  intro θ'
  have h := isFit_isMin X y hfit le_rfl θ'
  simpa [objective] using h

/-- Conversely, a least-squares minimizer satisfies the normal equations. -/
lemma isOLS_isFit (X : Fin n → Fin p → ℝ) (y : Fin n → ℝ)
    {θ : Fin (p + 1) → ℝ} (hols : IsOLS X y θ) : IsFit X y 0 θ := by
  intro k
  rw [zero_mul]
  have hs0 : (0:ℝ) ≤ ∑ i, aug X i k ^ 2 := Finset.sum_nonneg fun i _ => sq_nonneg _
  have key : ∀ t : ℝ, 0 ≤ t * t * (∑ i, aug X i k ^ 2)
      - 2 * t * (∑ i, (y i - pred X θ i) * aug X i k) := by
    intro t
    have hpred : ∀ i, pred X (fun k' => θ k' + (if k' = k then t else 0)) i
        = pred X θ i + t * aug X i k := by
      intro i
      unfold pred
      have h1 : ∀ k', (θ k' + (if k' = k then t else 0)) * aug X i k'
          = θ k' * aug X i k' + (if k' = k then t * aug X i k' else 0) := by
        intro k'
        by_cases h : k' = k
        · simp only [if_pos h]
          ring
        · simp only [if_neg h]
          ring
      rw [Finset.sum_congr rfl fun k' _ => h1 k', Finset.sum_add_distrib,
        Finset.sum_ite_eq' Finset.univ k fun k' => t * aug X i k']
      simp
    have hrss : rss X y (fun k' => θ k' + (if k' = k then t else 0))
        = rss X y θ - 2 * t * (∑ i, (y i - pred X θ i) * aug X i k)
          + t * t * (∑ i, aug X i k ^ 2) := by
      unfold rss
      have h2 : ∀ i, (y i - pred X (fun k' => θ k' + (if k' = k then t else 0)) i) ^ 2
          = ((y i - pred X θ i) ^ 2
              - 2 * t * ((y i - pred X θ i) * aug X i k))
            + t * t * aug X i k ^ 2 := by
        intro i
        rw [hpred i]
        ring
      rw [Finset.sum_congr rfl fun i _ => h2 i,
        Finset.sum_add_distrib, Finset.sum_sub_distrib, ← Finset.mul_sum,
        ← Finset.mul_sum]
    have hle := hols (fun k' => θ k' + (if k' = k then t else 0))
    rw [hrss] at hle
    linarith
  set g := ∑ i, (y i - pred X θ i) * aug X i k with hgdef
  set s := ∑ i, aug X i k ^ 2 with hsdef
  have hs1 : (0:ℝ) < s + 1 := by linarith
  have hcancel : g / (s + 1) * (s + 1) = g := div_mul_cancel₀ g hs1.ne'
  have hkey := key (g / (s + 1))
  have hrw : g / (s + 1) * (g / (s + 1)) * s - 2 * (g / (s + 1)) * g
      = -((g / (s + 1)) ^ 2 * (s + 2))
        + 2 * (g / (s + 1)) * (g / (s + 1) * (s + 1) - g) := by
    ring
  rw [hrw, hcancel] at hkey
  have hu2 : (g / (s + 1)) ^ 2 * (s + 2) ≤ 0 := by
    have : g - g = 0 := by ring
    nlinarith [hkey]
  have hu : g / (s + 1) = 0 := by
    have h1 : (g / (s + 1)) ^ 2 ≤ 0 := by nlinarith
    have h2 : (0:ℝ) ≤ (g / (s + 1)) ^ 2 := sq_nonneg _
    exact pow_eq_zero_iff two_ne_zero |>.mp (le_antisymm h1 h2)
  calc g = g / (s + 1) * (s + 1) := hcancel.symm
    _ = 0 := by rw [hu, zero_mul]

/-- The ridge penalty bounds every non-intercept coefficient of a fit:
`α · θₖ² ≤ ∑ yᵢ²`. -/
lemma ridge_coef_sq_le (X : Fin n → Fin p → ℝ) (y : Fin n → ℝ) {α : ℝ}
    {θ : Fin (p + 1) → ℝ} (hfit : IsFit X y α θ) (hα : 0 < α)
    (k : Fin (p + 1)) (hk : k ≠ 0) : θ k ^ 2 ≤ (∑ i, y i ^ 2) / α := by
  have h0 := isFit_isMin X y hfit hα.le (fun _ => 0)
  have hobj0 : objective X y α (fun _ => 0) = ∑ i, y i ^ 2 := by
    unfold objective rss pred dvec
    simp
  have h1 : θ k ^ 2 ≤ ∑ k', dvec θ k' ^ 2 := by
    have h2 : dvec θ k ^ 2 = θ k ^ 2 := by
      unfold dvec
      rw [if_neg hk]
    rw [← h2]
    exact Finset.single_le_sum (fun k' (_ : k' ∈ Finset.univ) => sq_nonneg (dvec θ k'))
      (Finset.mem_univ k)
  have h3 : (0:ℝ) ≤ rss X y θ := Finset.sum_nonneg fun i _ => sq_nonneg _
  rw [le_div_iff hα]
  have h4 : α * θ k ^ 2 ≤ objective X y α θ := by
    unfold objective
    nlinarith [mul_le_mul_of_nonneg_left h1 hα.le]
  nlinarith [h0, hobj0, h4]

end Reg

namespace Reg

/-- Any family of ridge fits has non-intercept coefficients vanishing as the
regularization strength grows. -/
lemma ridge_tendsto (X : Fin n → Fin p → ℝ) (y : Fin n → ℝ)
    (F : ℝ → Fin (p + 1) → ℝ) (hF : ∀ α : ℝ, 0 < α → IsFit X y α (F α))
    (k : Fin (p + 1)) (hk : k ≠ 0) :
    Filter.Tendsto (fun α => F α k) Filter.atTop (nhds 0) := by
  have hdiv : Filter.Tendsto (fun α : ℝ => (∑ i, y i ^ 2) / α) Filter.atTop (nhds 0) :=
    tendsto_const_nhds.div_atTop Filter.tendsto_id
  have hg : Filter.Tendsto (fun α : ℝ => Real.sqrt ((∑ i, y i ^ 2) / α))
      Filter.atTop (nhds 0) := by
    have h1 := (Real.continuous_sqrt.tendsto 0).comp hdiv
    rw [Real.sqrt_zero] at h1
    exact h1
  refine squeeze_zero_norm' ?_ hg
  filter_upwards [Filter.eventually_gt_atTop (0 : ℝ)] with α hα
  have h1 := ridge_coef_sq_le X y (hF α hα) hα k hk
  have h2 : |F α k| ≤ Real.sqrt ((∑ i, y i ^ 2) / α) := by
    rw [← Real.sqrt_sq_eq_abs]
    exact Real.sqrt_le_sqrt h1
  simpa [Real.norm_eq_abs] using h2

end Reg

namespace Reg

/-- C5: for every design matrix and target, the parameter vectors solving
the ridge normal equations at `ridgeAlpha = 0` are exactly the
ordinary-least-squares fits, and along any family of ridge fits every
coefficient other than the intercept tends to `0` as `ridgeAlpha → ∞`. -/
theorem claim_C5 (n p : ℕ) (X : Fin n → Fin p → ℝ) (y : Fin n → ℝ) :
    (∀ θ : Fin (p + 1) → ℝ, IsFit X y 0 θ ↔ IsOLS X y θ) ∧
    (∀ F : ℝ → Fin (p + 1) → ℝ, (∀ α : ℝ, 0 < α → IsFit X y α (F α)) →
      ∀ k : Fin (p + 1), k ≠ 0 →
        Filter.Tendsto (fun α => F α k) Filter.atTop (nhds 0)) := by
  constructor
  · intro θ
    exact ⟨fun h => isFit_zero_isOLS X y h, fun h => isOLS_isFit X y h⟩
  · intro F hF k hk
    exact ridge_tendsto X y F hF k hk

theorem claim_C5_witness :
    Filter.Tendsto (fun α : ℝ => (fun _ : ℝ => (![3, 0] : Fin 2 → ℝ)) α 1)
      Filter.atTop (nhds 0) :=
  (claim_C5 1 1 (fun _ _ => 2) (fun _ => 3)).2 (fun _ => ![3, 0])
    (fun α _ => by
      intro k
      fin_cases k <;>
        simp [pred, aug, dvec, Fin.sum_univ_succ])
    1 (by decide)

/-- Prediction of a single-feature model: intercept plus slope times the
input. -/
lemma pred_lineX (x : Fin n → ℝ) (θ : Fin 2 → ℝ) (i : Fin n) :
    pred (lineX x) θ i = θ 0 + θ 1 * x i := by
  unfold pred
  rw [Fin.sum_univ_two]
  show θ 0 * 1 + θ 1 * x i = θ 0 + θ 1 * x i
  ring

set_option maxHeartbeats 1000000 in
/-- C6: fitting with `ridgeAlpha = 0` on data generated exactly as
`y = 2.5 x + 5` recovers intercept `5` and slope `2.5` exactly whenever the
sample contains two distinct inputs; and with bounded noise the squared
recovery error of both parameters is at most a design-dependent constant
times the squared noise bound, so it vanishes as the noise shrinks. -/
theorem claim_C6 (n : ℕ) (x : Fin n → ℝ) (i0 i1 : Fin n) (hne : x i0 ≠ x i1) :
    (∀ θ : Fin 2 → ℝ, IsFit (lineX x) (fun i => 2.5 * x i + 5) 0 θ →
      θ 0 = 5 ∧ θ 1 = 2.5) ∧
    (∃ C : ℝ, 0 < C ∧ ∀ δ : ℝ, 0 ≤ δ → ∀ e : Fin n → ℝ, (∀ i, |e i| ≤ δ) →
      ∀ θ : Fin 2 → ℝ, IsFit (lineX x) (fun i => 2.5 * x i + 5 + e i) 0 θ →
        (θ 0 - 5) ^ 2 ≤ C * δ ^ 2 ∧ (θ 1 - 2.5) ^ 2 ≤ C * δ ^ 2) := by
  have hD2 : (0:ℝ) < (x i0 - x i1) ^ 2 := by
    have h := abs_pos.mpr (sub_ne_zero.mpr hne)
    calc (0:ℝ) < |x i0 - x i1| ^ 2 := pow_pos h 2
      _ = (x i0 - x i1) ^ 2 := sq_abs _
  have hn0 : (0:ℝ) ≤ (n:ℝ) := Nat.cast_nonneg n
  constructor
  · intro θ hfit
    have hols := isFit_zero_isOLS _ _ hfit
    have hstar : rss (lineX x) (fun i => 2.5 * x i + 5) ![5, 2.5] = 0 := by
      unfold rss
      refine Finset.sum_eq_zero fun i _ => ?_
      rw [pred_lineX]
      norm_num [Matrix.cons_val_zero, Matrix.cons_val_one, Matrix.head_cons]
      ring
    have h0 : rss (lineX x) (fun i => 2.5 * x i + 5) θ ≤ 0 := by
      have h := hols ![5, 2.5]
      rw [hstar] at h
      exact h
    have hsum0 : rss (lineX x) (fun i => 2.5 * x i + 5) θ = 0 :=
      le_antisymm h0 (Finset.sum_nonneg fun i _ => sq_nonneg _)
    have hz : ∀ i : Fin n, 2.5 * x i + 5 - pred (lineX x) θ i = 0 := by
      intro i
      unfold rss at hsum0
      have h2 := (Finset.sum_eq_zero_iff_of_nonneg
        (fun i (_ : i ∈ Finset.univ) =>
          sq_nonneg ((fun i => 2.5 * x i + 5) i - pred (lineX x) θ i))).mp
        hsum0 i (Finset.mem_univ i)
      exact pow_eq_zero_iff two_ne_zero |>.mp h2
    have e0 := hz i0
    have e1 := hz i1
    rw [pred_lineX] at e0 e1
    have hθ1 : θ 1 = 2.5 := by
      have h3 : (θ 1 - 2.5) * (x i0 - x i1) = 0 := by linear_combination e1 - e0
      rcases mul_eq_zero.mp h3 with h4 | h4
      · linarith
      · exact absurd (by linarith : x i0 = x i1) hne
    have hθ0 : θ 0 = 5 := by
      rw [hθ1] at e0
      linarith
    exact ⟨hθ0, hθ1⟩
  · refine ⟨(16 * (n:ℝ) + 8 * (n:ℝ) * (x i0 - x i1) ^ 2 + 32 * (n:ℝ) * (x i0) ^ 2
        + (x i0 - x i1) ^ 2) / (x i0 - x i1) ^ 2,
      div_pos (by nlinarith [sq_nonneg (x i0)]) hD2, ?_⟩
    intro δ hδ e he θ hfit
    have hols := isFit_zero_isOLS _ _ hfit
    have hstar : rss (lineX x) (fun i => 2.5 * x i + 5 + e i) ![5, 2.5]
        = ∑ i, e i ^ 2 := by
      unfold rss
      refine Finset.sum_congr rfl fun i _ => ?_
      rw [pred_lineX]
      norm_num [Matrix.cons_val_zero, Matrix.cons_val_one, Matrix.head_cons]
      ring
    have hle : rss (lineX x) (fun i => 2.5 * x i + 5 + e i) θ ≤ ∑ i, e i ^ 2 := by
      have h := hols ![5, 2.5]
      rw [hstar] at h
      exact h
    have hrss : rss (lineX x) (fun i => 2.5 * x i + 5 + e i) θ
        = ∑ i, (e i - ((θ 0 - 5) + (θ 1 - 2.5) * x i)) ^ 2 := by
      unfold rss
      refine Finset.sum_congr rfl fun i _ => ?_
      show (2.5 * x i + 5 + e i - pred (lineX x) θ i) ^ 2
        = (e i - ((θ 0 - 5) + (θ 1 - 2.5) * x i)) ^ 2
      rw [pred_lineX]
      ring
    rw [hrss] at hle
    have hexp : ∑ i, (e i - ((θ 0 - 5) + (θ 1 - 2.5) * x i)) ^ 2
        = ∑ i, e i ^ 2 - 2 * ∑ i, e i * ((θ 0 - 5) + (θ 1 - 2.5) * x i)
          + ∑ i, ((θ 0 - 5) + (θ 1 - 2.5) * x i) ^ 2 := by
      rw [Finset.sum_congr rfl fun i _ =>
        show (e i - ((θ 0 - 5) + (θ 1 - 2.5) * x i)) ^ 2
          = (e i ^ 2 - 2 * (e i * ((θ 0 - 5) + (θ 1 - 2.5) * x i)))
            + ((θ 0 - 5) + (θ 1 - 2.5) * x i) ^ 2 from by ring,
        Finset.sum_add_distrib, Finset.sum_sub_distrib, ← Finset.mul_sum]
    have hcs : 2 * ∑ i, e i * ((θ 0 - 5) + (θ 1 - 2.5) * x i)
        ≤ 2 * ∑ i, e i ^ 2 + (1/2) * ∑ i, ((θ 0 - 5) + (θ 1 - 2.5) * x i) ^ 2 := by
      rw [Finset.mul_sum, Finset.mul_sum, Finset.mul_sum, ← Finset.sum_add_distrib]
      refine Finset.sum_le_sum fun i _ => ?_
      nlinarith [sq_nonneg (((θ 0 - 5) + (θ 1 - 2.5) * x i) - 2 * e i)]
    have hsum_u : ∑ i, ((θ 0 - 5) + (θ 1 - 2.5) * x i) ^ 2 ≤ 4 * ∑ i, e i ^ 2 := by
      linarith [hle, hexp, hcs]
    have hsum_e : ∑ i, e i ^ 2 ≤ (n:ℝ) * δ ^ 2 := by
      calc ∑ i, e i ^ 2 ≤ ∑ _i : Fin n, δ ^ 2 :=
            Finset.sum_le_sum fun i _ => by
              nlinarith [he i, abs_nonneg (e i), sq_abs (e i)]
        _ = (n:ℝ) * δ ^ 2 := by
            rw [Finset.sum_const, Finset.card_univ, Fintype.card_fin, nsmul_eq_mul]
    have hui : ∀ i, ((θ 0 - 5) + (θ 1 - 2.5) * x i) ^ 2 ≤ 4 * ((n:ℝ) * δ ^ 2) := by
      intro i
      have h1 : ((θ 0 - 5) + (θ 1 - 2.5) * x i) ^ 2
          ≤ ∑ i', ((θ 0 - 5) + (θ 1 - 2.5) * x i') ^ 2 :=
        Finset.single_le_sum (fun i' (_ : i' ∈ Finset.univ) =>
          sq_nonneg ((θ 0 - 5) + (θ 1 - 2.5) * x i')) (Finset.mem_univ i)
      linarith
    have hb : (θ 1 - 2.5) ^ 2 * (x i0 - x i1) ^ 2 ≤ 16 * ((n:ℝ) * δ ^ 2) := by
      nlinarith [hui i0, hui i1,
        sq_nonneg (((θ 0 - 5) + (θ 1 - 2.5) * x i0) + ((θ 0 - 5) + (θ 1 - 2.5) * x i1))]
    have ha : (θ 0 - 5) ^ 2 * (x i0 - x i1) ^ 2
        ≤ 8 * ((n:ℝ) * δ ^ 2) * (x i0 - x i1) ^ 2
          + 32 * (x i0) ^ 2 * ((n:ℝ) * δ ^ 2) := by
      have k1 : ((θ 0 - 5) + (θ 1 - 2.5) * x i0) ^ 2 * (x i0 - x i1) ^ 2
          ≤ 4 * ((n:ℝ) * δ ^ 2) * (x i0 - x i1) ^ 2 :=
        mul_le_mul_of_nonneg_right (hui i0) (sq_nonneg _)
      have k2 : (θ 1 - 2.5) ^ 2 * (x i0 - x i1) ^ 2 * (x i0) ^ 2
          ≤ 16 * ((n:ℝ) * δ ^ 2) * (x i0) ^ 2 :=
        mul_le_mul_of_nonneg_right hb (sq_nonneg _)
      have hid : (θ 0 - 5) ^ 2 * (x i0 - x i1) ^ 2
          = 2 * (((θ 0 - 5) + (θ 1 - 2.5) * x i0) ^ 2 * (x i0 - x i1) ^ 2)
            + 2 * ((θ 1 - 2.5) ^ 2 * (x i0 - x i1) ^ 2 * (x i0) ^ 2)
            - ((((θ 0 - 5) + (θ 1 - 2.5) * x i0) + (θ 1 - 2.5) * x i0)
                * (x i0 - x i1)) ^ 2 := by
        ring
      have hnn := sq_nonneg ((((θ 0 - 5) + (θ 1 - 2.5) * x i0) + (θ 1 - 2.5) * x i0)
        * (x i0 - x i1))
      linarith [k1, k2, hnn, hid]
    have hδn : (0:ℝ) ≤ (n:ℝ) * δ ^ 2 := by positivity
    have hDδ : (0:ℝ) ≤ (x i0 - x i1) ^ 2 * δ ^ 2 := by positivity
    have hnDδ : (0:ℝ) ≤ (n:ℝ) * (x i0 - x i1) ^ 2 * δ ^ 2 := by positivity
    have hnxδ : (0:ℝ) ≤ (n:ℝ) * (x i0) ^ 2 * δ ^ 2 := by positivity
    constructor
    · rw [div_mul_eq_mul_div, le_div_iff hD2]
      linarith [ha, hδn, hDδ, hnDδ, hnxδ]
    · rw [div_mul_eq_mul_div, le_div_iff hD2]
      linarith [hb, hδn, hDδ, hnDδ, hnxδ]

theorem claim_C6_witness :
    (![5, 2.5] : Fin 2 → ℝ) 0 = 5 ∧ (![5, 2.5] : Fin 2 → ℝ) 1 = 2.5 :=
  (claim_C6 2 ![0, 1] 0 1
    (by norm_num [Matrix.cons_val_zero, Matrix.cons_val_one, Matrix.head_cons])).1
    ![5, 2.5]
    (by
      intro k
      rw [zero_mul]
      refine Finset.sum_eq_zero fun i _ => ?_
      have hres : (fun i => 2.5 * (![0, 1] : Fin 2 → ℝ) i + 5) i
          - pred (lineX ![0, 1]) ![5, 2.5] i = 0 := by
        rw [pred_lineX]
        fin_cases i <;>
          norm_num [Matrix.cons_val_zero, Matrix.cons_val_one, Matrix.head_cons]
      rw [hres, zero_mul])

end Reg

namespace Poly

/-- C7: the polynomial expansion with `degree = 2`, `includeBias = false`
produces exactly `[x, x^2]` for one input feature, and exactly
`[x1, x2, x1^2, x1*x2, x2^2]` for two input features with
`interactionOnly = false`. -/
theorem claim_C7 :
    (∀ x : ℚ, expandRow [x] 2 false false = [x, x * x]) ∧
    (∀ x1 x2 : ℚ,
      expandRow [x1, x2] 2 false false = [x1, x2, x1 * x1, x1 * x2, x2 * x2]) := by
  constructor
  · intro x
    have hc : polyCombos 1 2 false false = [[0], [0, 0]] := rfl
    simp [expandRow, hc]
  · intro x1 x2
    have hc : polyCombos 2 2 false false = [[0], [1], [0, 0], [0, 1], [1, 1]] := rfl
    simp [expandRow, hc]

end Poly
